import Mathlib

/-!
Verification of the ctxzap field-merge engine and context field store.

The Go source is embedded shallowly:

* `zap.Field` becomes `Ctxzap.Field`: a string key plus a tagged value
  (`FieldValue` encodes the value together with its kind tag, so that
  `Field.Equals` — zap's kind/key/value comparison — is structural equality).
* The Go `map[string]zap.Field` used inside `MergeFields` is embedded as a
  function `String → Option Field` (the code only inserts, looks up and
  deletes; it never iterates over the map, so map iteration order is
  irrelevant).
* `MergeFields`, `WithFields` and `FieldsFromContext` follow the Go code of
  `fields.go` / `context.go` statement by statement; the Go `for` loops become
  `List.foldl` over the same step functions.
* `context.Context` becomes the parent-linked tree `Ctx`; a `nil` context is
  `(none : Option Ctx)`.  `Ctx.value` is `ctx.Value(fieldsKey)`: the nearest
  ancestor carrying a field slice.
* For the defensive-copy claim, slice identity matters, so a second embedding
  (`Store`, `CtxRef`, `FieldsFromContextRef`) models slices as heap cells with
  explicit allocation, exactly mirroring `make` + `copy` in the source.
-/

set_option autoImplicit false

namespace Ctxzap

/-- A zap field value together with its kind tag: the constructor plays the
role of `zapcore.FieldType`, so structural equality of `FieldValue` is zap's
(kind, value) equality. -/
inductive FieldValue where
  | str (s : String)
  | int (i : Int)
  | bool (b : Bool)
  deriving DecidableEq, Repr

/-- `zap.Field`: a key plus a (kind, value) payload. -/
structure Field where
  key : String
  value : FieldValue
  deriving DecidableEq, Repr

/-- `zap.Field.Equals`: compares kind, key and value — with the embedding of
the payload this is structural equality. -/
def Field.Equals (a b : Field) : Bool :=
  decide (a = b)

/-- The Go `map[string]zap.Field`, embedded as a lookup function. -/
def FieldMap : Type := String → Option Field

/-- `make(map[string]zap.Field, ...)`. -/
def emptyMap : FieldMap := fun _ => none

/-- `m[k] = v`. -/
def mapInsert (m : FieldMap) (k : String) (v : Field) : FieldMap :=
  fun k' => if k' = k then some v else m k'

/-- `delete(m, k)`. -/
def mapErase (m : FieldMap) (k : String) : FieldMap :=
  fun k' => if k' = k then none else m k'

/-- The two map-filling loops of `MergeFields`: `for _, field := range fs {
fieldMap[field.Key] = field }`. -/
def buildMap (fs : List Field) (m : FieldMap) : FieldMap :=
  fs.foldl (fun m field => mapInsert m field.key field) m

/-- Body of the first rebuild loop of `MergeFields`:
`if f, exists := fieldMap[field.Key]; exists && f.Equals(field) {
result = append(result, field); delete(fieldMap, field.Key) }`. -/
def step1 (acc : List Field × FieldMap) (field : Field) : List Field × FieldMap :=
  match acc.2 field.key with
  | some f =>
    if Field.Equals f field then (acc.1 ++ [field], mapErase acc.2 field.key) else acc
  | none => acc

/-- Body of the second rebuild loop of `MergeFields`:
`if _, exists := fieldMap[field.Key]; exists {
result = append(result, field); delete(fieldMap, field.Key) }`. -/
def step2 (acc : List Field × FieldMap) (field : Field) : List Field × FieldMap :=
  match acc.2 field.key with
  | some _ => (acc.1 ++ [field], mapErase acc.2 field.key)
  | none => acc

/-- `MergeFields` from the source: empty-input fast paths, a deduplication
map filled with existing fields then new fields, then the two rebuild
loops. -/
def MergeFields (existingFields newFields : List Field) : List Field :=
  if existingFields.length = 0 then newFields
  else if newFields.length = 0 then existingFields
  else
    let fieldMap := buildMap newFields (buildMap existingFields emptyMap)
    let p1 := existingFields.foldl step1 ([], fieldMap)
    let p2 := newFields.foldl step2 p1
    p2.1

/-- `context.Context` as the core sees it: a parent-linked carrier where
`withFieldsVal parent fs` is `context.WithValue(parent, fieldsKey, fs)` and
`other parent` is any context layer carrying no field slice. -/
inductive Ctx where
  | background
  | other (parent : Ctx)
  | withFieldsVal (parent : Ctx) (fields : List Field)

/-- `ctx.Value(fieldsKey).([]zap.Field)`: walk to the nearest ancestor that
carries a field slice. -/
def Ctx.value : Ctx → Option (List Field)
  | .background => none
  | .other parent => parent.value
  | .withFieldsVal _ fields => some fields

/-- `result := make([]zap.Field, len(fields)); copy(result, fields)` — in the
pure embedding the copy has the same contents; identity of the allocation is
modelled separately in the heap embedding below. -/
def copySlice (fields : List Field) : List Field :=
  fields.map id

/-- `FieldsFromContext` from the source: `nil` context and failed type
assertion both yield an empty slice; otherwise a copy of the stored slice. -/
def FieldsFromContext : Option Ctx → List Field
  | none => []
  | some ctx =>
    match ctx.value with
    | none => []
    | some fields => copySlice fields

/-- `WithFields` from the source: empty attach returns the context itself;
attaching to a context with no fields stores the arguments directly;
otherwise the merged slice is stored on a child context. -/
def WithFields (ctx : Ctx) (fields : List Field) : Ctx :=
  if fields.length = 0 then ctx
  else
    let existingFields := FieldsFromContext (some ctx)
    if existingFields.length = 0 then Ctx.withFieldsVal ctx fields
    else Ctx.withFieldsVal ctx (MergeFields existingFields fields)

/-! Derived notions used to state the claims. -/

/-- The keys of a field collection, in order. -/
def keysOf (fs : List Field) : List String :=
  fs.map (fun f => f.key)

/-- First field with the given key (Go slice-order lookup). -/
def lookupField : List Field → String → Option Field
  | [], _ => none
  | f :: fs, k => if f.key = k then some f else lookupField fs k

/-- Last field with the given key — what the deduplication map retains. -/
def lookupLast : List Field → String → Option Field
  | [], _ => none
  | f :: fs, k =>
    match lookupLast fs k with
    | some g => some g
    | none => if f.key = k then some f else none

/-- Whether some field carries the given key. -/
def hasKey (fs : List Field) (k : String) : Bool :=
  (lookupField fs k).isSome

/-- How many fields carry the given key. -/
def countKey (fs : List Field) (k : String) : Nat :=
  (keysOf fs).count k

/-- A collection is unique-keyed. -/
def NodupKeys (fs : List Field) : Prop :=
  (keysOf fs).Nodup

instance (fs : List Field) : Decidable (NodupKeys fs) := by
  unfold NodupKeys; infer_instance

/-- Modelled from the spec: the two-pass reference formulation of §4.1 —
fields of `existing` whose keys do not occur in `incoming`, in order,
followed by all of `incoming` in order. -/
def mergeTwoPass (existingFields newFields : List Field) : List Field :=
  existingFields.filter (fun f => !(hasKey newFields f.key)) ++ newFields

/-- The existing-fields part `MergeFields` actually emits (for unique-keyed
nonempty inputs): an existing field survives in place when `incoming` either
lacks its key or carries an identical field. -/
def keepExisting (existingFields newFields : List Field) : List Field :=
  existingFields.filter (fun f =>
    match lookupField newFields f.key with
    | none => true
    | some g => Field.Equals g f)

/-- The incoming-fields part `MergeFields` actually emits (for unique-keyed
nonempty inputs): an incoming field is appended unless it is identical to the
existing field with its key. -/
def appendIncoming (existingFields newFields : List Field) : List Field :=
  newFields.filter (fun f =>
    match lookupField existingFields f.key with
    | none => true
    | some g => !(Field.Equals g f))

/-! Recursive forms of the two rebuild loops, used for reasoning; they are
proved equal to the `foldl` forms below. -/

/-- Recursive form of the first rebuild loop. -/
def loop1 : FieldMap → List Field → List Field × FieldMap
  | m, [] => ([], m)
  | m, field :: rest =>
    match m field.key with
    | some f =>
      if Field.Equals f field then
        (field :: (loop1 (mapErase m field.key) rest).1,
          (loop1 (mapErase m field.key) rest).2)
      else loop1 m rest
    | none => loop1 m rest

/-- Recursive form of the second rebuild loop. -/
def loop2 : FieldMap → List Field → List Field × FieldMap
  | m, [] => ([], m)
  | m, field :: rest =>
    match m field.key with
    | some _ =>
      (field :: (loop2 (mapErase m field.key) rest).1,
        (loop2 (mapErase m field.key) rest).2)
    | none => loop2 m rest

/-! Heap embedding for the defensive-copy behaviour: slices are cells in a
store, `make`+`copy` is a fresh allocation. -/

/-- A heap of field slices: cell contents plus the next fresh address. -/
structure Store where
  cells : Nat → List Field
  next : Nat

/-- Reading a slice. -/
def Store.read (s : Store) (r : Nat) : List Field :=
  s.cells r

/-- `make([]zap.Field, n)` + `copy`: allocate a fresh cell with the given
contents. -/
def Store.alloc (s : Store) (fs : List Field) : Nat × Store :=
  (s.next, ⟨fun i => if i = s.next then fs else s.cells i, s.next + 1⟩)

/-- In-place mutation of a slice (what a caller may do to the returned
copy). -/
def Store.write (s : Store) (r : Nat) (fs : List Field) : Store :=
  ⟨fun i => if i = r then fs else s.cells i, s.next⟩

/-- Contexts in the heap embedding store slice references. -/
inductive CtxRef where
  | background
  | other (parent : CtxRef)
  | withFieldsSlice (parent : CtxRef) (r : Nat)

/-- `ctx.Value(fieldsKey)` in the heap embedding: the nearest stored slice
reference. -/
def CtxRef.valueRef : CtxRef → Option Nat
  | .background => none
  | .other parent => parent.valueRef
  | .withFieldsSlice _ r => some r

/-- `FieldsFromContext` in the heap embedding: absent association returns no
slice; otherwise a fresh cell is allocated with the stored contents. -/
def FieldsFromContextRef (s : Store) (ctx : Option CtxRef) : Option Nat × Store :=
  match ctx with
  | none => (none, s)
  | some c =>
    match c.valueRef with
    | none => (none, s)
    | some r =>
      let a := s.alloc (s.read r)
      (some a.1, a.2)

end Ctxzap

namespace Ctxzap

/-! Basic lemmas about the embedded map and the lookup helpers. -/

theorem Field.Equals_iff (a b : Field) : Field.Equals a b = true ↔ a = b := by
  simp [Field.Equals]

theorem Field.Equals_self (a : Field) : Field.Equals a a = true := by
  simp [Field.Equals]

theorem mapInsert_apply (m : FieldMap) (k : String) (v : Field) (k' : String) :
    mapInsert m k v k' = if k' = k then some v else m k' := rfl

theorem mapErase_apply (m : FieldMap) (k k' : String) :
    mapErase m k k' = if k' = k then none else m k' := rfl

theorem mapErase_ne (m : FieldMap) (k k' : String) (h : k' ≠ k) :
    mapErase m k k' = m k' := by
  simp [mapErase, h]

theorem mem_keysOf {fs : List Field} {k : String} :
    k ∈ keysOf fs ↔ ∃ f ∈ fs, f.key = k := by
  simp [keysOf]

theorem keysOf_append (l₁ l₂ : List Field) :
    keysOf (l₁ ++ l₂) = keysOf l₁ ++ keysOf l₂ := by
  simp [keysOf]

theorem lookupField_eq_some {fs : List Field} {k : String} {f : Field}
    (h : lookupField fs k = some f) : f ∈ fs ∧ f.key = k := by
  induction fs with
  | nil => simp [lookupField] at h
  | cons g gs ih =>
    by_cases hg : g.key = k
    · simp [lookupField, hg] at h
      subst h
      exact ⟨List.mem_cons_self _ _, hg⟩
    · simp [lookupField, hg] at h
      rcases ih h with ⟨h1, h2⟩
      exact ⟨List.mem_cons_of_mem _ h1, h2⟩

theorem lookupField_eq_none {fs : List Field} {k : String} :
    lookupField fs k = none ↔ k ∉ keysOf fs := by
  induction fs with
  | nil => simp [lookupField, keysOf]
  | cons g gs ih =>
    by_cases hg : g.key = k
    · simp [lookupField, hg, keysOf]
    · simp [lookupField, hg, keysOf] at ih ⊢
      constructor
      · intro h
        exact ⟨fun hk => hg hk.symm, (ih.1 h)⟩
      · intro h
        exact ih.2 h.2

theorem keysOf_cons (g : Field) (gs : List Field) :
    keysOf (g :: gs) = g.key :: keysOf gs := rfl

theorem lookupField_isSome {fs : List Field} {k : String} :
    (lookupField fs k).isSome = true ↔ k ∈ keysOf fs := by
  cases hlk : lookupField fs k with
  | none =>
    have := lookupField_eq_none.1 hlk
    simp [this]
  | some f =>
    rcases lookupField_eq_some hlk with ⟨h1, h2⟩
    simp only [Option.isSome_some, true_iff]
    exact mem_keysOf.2 ⟨f, h1, h2⟩

theorem lookupField_of_mem {fs : List Field} {f : Field}
    (hnd : NodupKeys fs) (hf : f ∈ fs) : lookupField fs f.key = some f := by
  induction fs with
  | nil => simp at hf
  | cons g gs ih =>
    rcases List.mem_cons.1 hf with h | h
    · subst h
      simp [lookupField]
    · have hne : g.key ≠ f.key := by
        intro he
        have : f.key ∈ keysOf gs := mem_keysOf.2 ⟨f, h, rfl⟩
        have hnd' := hnd
        unfold NodupKeys at hnd'
        simp [keysOf] at hnd'
        exact hnd'.1 f h (by rw [he])
      have hnd2 : NodupKeys gs := by
        unfold NodupKeys at hnd ⊢
        simp [keysOf] at hnd ⊢
        exact hnd.2
      simp [lookupField, hne, ih hnd2 h]

theorem lookupField_append (l₁ l₂ : List Field) (k : String) :
    lookupField (l₁ ++ l₂) k =
      match lookupField l₁ k with
      | some f => some f
      | none => lookupField l₂ k := by
  induction l₁ with
  | nil => simp [lookupField]
  | cons g gs ih =>
    by_cases hg : g.key = k
    · simp [lookupField, hg]
    · simp [lookupField, hg, ih]

theorem lookupLast_eq_some {fs : List Field} {k : String} {f : Field}
    (h : lookupLast fs k = some f) : f ∈ fs ∧ f.key = k := by
  induction fs with
  | nil => simp [lookupLast] at h
  | cons g gs ih =>
    unfold lookupLast at h
    cases hl : lookupLast gs k with
    | some g' =>
      rw [hl] at h
      simp at h
      subst h
      rcases ih hl with ⟨h1, h2⟩
      exact ⟨List.mem_cons_of_mem _ h1, h2⟩
    | none =>
      rw [hl] at h
      by_cases hg : g.key = k
      · simp [hg] at h
        subst h
        exact ⟨List.mem_cons_self _ _, hg⟩
      · simp [hg] at h

theorem lookupLast_eq_none {fs : List Field} {k : String} :
    lookupLast fs k = none ↔ k ∉ keysOf fs := by
  induction fs with
  | nil => simp [lookupLast, keysOf]
  | cons g gs ih =>
    unfold lookupLast
    cases hl : lookupLast gs k with
    | some g' =>
      rcases lookupLast_eq_some hl with ⟨h1, h2⟩
      simp only [keysOf_cons, List.mem_cons]
      constructor
      · intro h
        cases h
      · intro hcon
        exact absurd (Or.inr (mem_keysOf.2 ⟨g', h1, h2⟩)) hcon
    | none =>
      have hk : k ∉ keysOf gs := ih.1 hl
      by_cases hg : g.key = k
      · rw [if_pos hg]
        simp [keysOf_cons, hg]
      · rw [if_neg hg]
        simp only [keysOf_cons, List.mem_cons, true_iff]
        intro hcon
        rcases hcon with h | h
        · exact hg h.symm
        · exact hk h

theorem lookupLast_of_nodup {fs : List Field} (hnd : NodupKeys fs) (k : String) :
    lookupLast fs k = lookupField fs k := by
  induction fs with
  | nil => rfl
  | cons g gs ih =>
    have hnd2 : NodupKeys gs := by
      unfold NodupKeys at hnd ⊢
      simp [keysOf] at hnd ⊢
      exact hnd.2
    have hhead : ∀ f ∈ gs, f.key ≠ g.key := by
      intro f hf he
      unfold NodupKeys at hnd
      simp [keysOf] at hnd
      exact hnd.1 f hf he
    unfold lookupLast
    rw [ih hnd2]
    by_cases hg : g.key = k
    · cases hl : lookupField gs k with
      | some g' =>
        rcases lookupField_eq_some hl with ⟨h1, h2⟩
        exact absurd (h2.trans hg.symm) (hhead g' h1)
      | none => simp [lookupField, hg]
    · cases hl : lookupField gs k with
      | some g' => simp [lookupField, hg, hl]
      | none => simp [lookupField, hg, hl]

theorem NodupKeys_filter {fs : List Field} (p : Field → Bool)
    (hnd : NodupKeys fs) : NodupKeys (fs.filter p) := by
  unfold NodupKeys at hnd ⊢
  exact List.Nodup.sublist (List.Sublist.map _ (List.filter_sublist fs)) hnd

end Ctxzap

namespace Ctxzap

theorem NodupKeys_cons {g : Field} {gs : List Field} :
    NodupKeys (g :: gs) ↔ (∀ f ∈ gs, f.key ≠ g.key) ∧ NodupKeys gs := by
  unfold NodupKeys
  rw [keysOf_cons, List.nodup_cons]
  constructor
  · rintro ⟨h1, h2⟩
    refine ⟨fun f hf he => h1 ?_, h2⟩
    exact mem_keysOf.2 ⟨f, hf, he⟩
  · rintro ⟨h1, h2⟩
    refine ⟨fun hmem => ?_, h2⟩
    rcases mem_keysOf.1 hmem with ⟨f, hf, he⟩
    exact h1 f hf he

theorem lookupLast_cons (g : Field) (gs : List Field) (k : String) :
    lookupLast (g :: gs) k =
      match lookupLast gs k with
      | some g' => some g'
      | none => if g.key = k then some g else none := rfl

theorem buildMap_apply (fs : List Field) (m : FieldMap) (k : String) :
    buildMap fs m k =
      match lookupLast fs k with
      | some f => some f
      | none => m k := by
  induction fs generalizing m with
  | nil => rfl
  | cons g gs ih =>
    have hstep : buildMap (g :: gs) m = buildMap gs (mapInsert m g.key g) := rfl
    rw [hstep, ih, lookupLast_cons]
    cases hl : lookupLast gs k with
    | some g' => rfl
    | none =>
      by_cases hg : g.key = k
      · rw [if_pos hg]
        simp [mapInsert, hg]
      · rw [if_neg hg]
        have hg' : ¬(k = g.key) := fun h => hg h.symm
        simp [mapInsert, hg']

theorem loop1_nil (m : FieldMap) : loop1 m [] = ([], m) := rfl

theorem loop1_cons (m : FieldMap) (field : Field) (rest : List Field) :
    loop1 m (field :: rest) =
      match m field.key with
      | some f =>
        if Field.Equals f field then
          (field :: (loop1 (mapErase m field.key) rest).1,
            (loop1 (mapErase m field.key) rest).2)
        else loop1 m rest
      | none => loop1 m rest := rfl

theorem loop2_nil (m : FieldMap) : loop2 m [] = ([], m) := rfl

theorem loop2_cons (m : FieldMap) (field : Field) (rest : List Field) :
    loop2 m (field :: rest) =
      match m field.key with
      | some _ =>
        (field :: (loop2 (mapErase m field.key) rest).1,
          (loop2 (mapErase m field.key) rest).2)
      | none => loop2 m rest := rfl

theorem step1_keep (acc : List Field) (m : FieldMap) (field g : Field)
    (hm : m field.key = some g) (he : Field.Equals g field = true) :
    step1 (acc, m) field = (acc ++ [field], mapErase m field.key) := by
  simp [step1, hm, he]

theorem step1_skip_ne (acc : List Field) (m : FieldMap) (field g : Field)
    (hm : m field.key = some g) (he : ¬Field.Equals g field = true) :
    step1 (acc, m) field = (acc, m) := by
  simp [step1, hm, he]

theorem step1_skip_none (acc : List Field) (m : FieldMap) (field : Field)
    (hm : m field.key = none) :
    step1 (acc, m) field = (acc, m) := by
  simp [step1, hm]

theorem step2_keep (acc : List Field) (m : FieldMap) (field g : Field)
    (hm : m field.key = some g) :
    step2 (acc, m) field = (acc ++ [field], mapErase m field.key) := by
  simp [step2, hm]

theorem step2_skip (acc : List Field) (m : FieldMap) (field : Field)
    (hm : m field.key = none) :
    step2 (acc, m) field = (acc, m) := by
  simp [step2, hm]

theorem foldl_step1_eq (es : List Field) (acc : List Field) (m : FieldMap) :
    es.foldl step1 (acc, m) = (acc ++ (loop1 m es).1, (loop1 m es).2) := by
  induction es generalizing acc m with
  | nil => simp [loop1_nil]
  | cons f fs ih =>
    rw [List.foldl_cons, loop1_cons]
    cases hm : m f.key with
    | some g =>
      by_cases he : Field.Equals g f
      · rw [step1_keep acc m f g hm he, ih]
        simp [he]
      · rw [step1_skip_ne acc m f g hm he, ih]
        simp [he]
    | none =>
      rw [step1_skip_none acc m f hm, ih]

theorem foldl_step2_eq (fs : List Field) (acc : List Field) (m : FieldMap) :
    fs.foldl step2 (acc, m) = (acc ++ (loop2 m fs).1, (loop2 m fs).2) := by
  induction fs generalizing acc m with
  | nil => simp [loop2_nil]
  | cons f rest ih =>
    rw [List.foldl_cons, loop2_cons]
    cases hm : m f.key with
    | some g =>
      rw [step2_keep acc m f g hm, ih]
      simp
    | none =>
      rw [step2_skip acc m f hm, ih]

theorem mergeFields_eq_loops (ex inc : List Field) (hex : ex ≠ []) (hinc : inc ≠ []) :
    MergeFields ex inc =
      (loop1 (buildMap inc (buildMap ex emptyMap)) ex).1 ++
        (loop2 ((loop1 (buildMap inc (buildMap ex emptyMap)) ex).2) inc).1 := by
  unfold MergeFields
  rw [if_neg (by simpa using hex), if_neg (by simpa using hinc)]
  simp only []
  rw [foldl_step1_eq]
  rw [foldl_step2_eq]
  simp

end Ctxzap

namespace Ctxzap

theorem mapErase_eq_some {m : FieldMap} {k k' : String} {v : Field}
    (h : mapErase m k k' = some v) : k' ≠ k ∧ m k' = some v := by
  by_cases hk : k' = k
  · rw [mapErase_apply, if_pos hk] at h
    cases h
  · rw [mapErase_apply, if_neg hk] at h
    exact ⟨hk, h⟩

theorem loop1_keep {m : FieldMap} {field g : Field} (rest : List Field)
    (hm : m field.key = some g) (he : Field.Equals g field = true) :
    loop1 m (field :: rest) =
      (field :: (loop1 (mapErase m field.key) rest).1,
        (loop1 (mapErase m field.key) rest).2) := by
  rw [loop1_cons, hm]
  simp [he]

theorem loop1_skip_ne {m : FieldMap} {field g : Field} (rest : List Field)
    (hm : m field.key = some g) (he : ¬Field.Equals g field = true) :
    loop1 m (field :: rest) = loop1 m rest := by
  rw [loop1_cons, hm]
  simp [he]

theorem loop1_skip_none {m : FieldMap} {field : Field} (rest : List Field)
    (hm : m field.key = none) :
    loop1 m (field :: rest) = loop1 m rest := by
  rw [loop1_cons, hm]

theorem loop2_keep {m : FieldMap} {field g : Field} (rest : List Field)
    (hm : m field.key = some g) :
    loop2 m (field :: rest) =
      (field :: (loop2 (mapErase m field.key) rest).1,
        (loop2 (mapErase m field.key) rest).2) := by
  rw [loop2_cons, hm]

theorem loop2_skip {m : FieldMap} {field : Field} (rest : List Field)
    (hm : m field.key = none) :
    loop2 m (field :: rest) = loop2 m rest := by
  rw [loop2_cons, hm]

theorem loop1_mem {es : List Field} {m : FieldMap} {f : Field}
    (h : f ∈ (loop1 m es).1) : f ∈ es ∧ m f.key = some f := by
  induction es generalizing m with
  | nil => simp [loop1_nil] at h
  | cons g gs ih =>
    cases hm : m g.key with
    | some g' =>
      by_cases he : Field.Equals g' g = true
      · rw [loop1_keep gs hm he] at h
        rcases List.mem_cons.1 h with h | h
        · subst h
          have hge : g' = f := (Field.Equals_iff _ _).1 he
          exact ⟨List.mem_cons_self _ _, by rw [hm, hge]⟩
        · rcases ih h with ⟨h1, h2⟩
          rcases mapErase_eq_some h2 with ⟨_, h3⟩
          exact ⟨List.mem_cons_of_mem _ h1, h3⟩
      · rw [loop1_skip_ne gs hm he] at h
        rcases ih h with ⟨h1, h2⟩
        exact ⟨List.mem_cons_of_mem _ h1, h2⟩
    | none =>
      rw [loop1_skip_none gs hm] at h
      rcases ih h with ⟨h1, h2⟩
      exact ⟨List.mem_cons_of_mem _ h1, h2⟩

theorem loop2_mem {fs : List Field} {m : FieldMap} {f : Field}
    (h : f ∈ (loop2 m fs).1) : f ∈ fs ∧ ∃ v, m f.key = some v := by
  induction fs generalizing m with
  | nil => simp [loop2_nil] at h
  | cons g gs ih =>
    cases hm : m g.key with
    | some g' =>
      rw [loop2_keep gs hm] at h
      rcases List.mem_cons.1 h with h | h
      · subst h
        exact ⟨List.mem_cons_self _ _, g', hm⟩
      · rcases ih h with ⟨h1, v, h2⟩
        rcases mapErase_eq_some h2 with ⟨_, h3⟩
        exact ⟨List.mem_cons_of_mem _ h1, v, h3⟩
    | none =>
      rw [loop2_skip gs hm] at h
      rcases ih h with ⟨h1, h2⟩
      exact ⟨List.mem_cons_of_mem _ h1, h2⟩

theorem loop1_not_mem_of_none {es : List Field} {m : FieldMap} {k : String}
    (h : m k = none) : k ∉ keysOf (loop1 m es).1 := by
  intro hk
  rcases mem_keysOf.1 hk with ⟨f, hf, he⟩
  rcases loop1_mem hf with ⟨_, h2⟩
  rw [he, h] at h2
  cases h2

theorem loop2_not_mem_of_none {fs : List Field} {m : FieldMap} {k : String}
    (h : m k = none) : k ∉ keysOf (loop2 m fs).1 := by
  intro hk
  rcases mem_keysOf.1 hk with ⟨f, hf, he⟩
  rcases loop2_mem hf with ⟨_, v, h2⟩
  rw [he, h] at h2
  cases h2

theorem loop1_length (es : List Field) (m : FieldMap) :
    (loop1 m es).1.length ≤ es.length := by
  induction es generalizing m with
  | nil => simp [loop1_nil]
  | cons g gs ih =>
    cases hm : m g.key with
    | some g' =>
      by_cases he : Field.Equals g' g = true
      · rw [loop1_keep gs hm he]
        simpa using Nat.succ_le_succ (ih (mapErase m g.key))
      · rw [loop1_skip_ne gs hm he]
        exact Nat.le_succ_of_le (ih m)
    | none =>
      rw [loop1_skip_none gs hm]
      exact Nat.le_succ_of_le (ih m)

theorem loop2_length (fs : List Field) (m : FieldMap) :
    (loop2 m fs).1.length ≤ fs.length := by
  induction fs generalizing m with
  | nil => simp [loop2_nil]
  | cons g gs ih =>
    cases hm : m g.key with
    | some g' =>
      rw [loop2_keep gs hm]
      simpa using Nat.succ_le_succ (ih (mapErase m g.key))
    | none =>
      rw [loop2_skip gs hm]
      exact Nat.le_succ_of_le (ih m)

theorem loop1_keys (es : List Field) (m : FieldMap) :
    (keysOf (loop1 m es).1).Nodup ∧
      (∀ k, k ∈ keysOf (loop1 m es).1 → (loop1 m es).2 k = none) ∧
      (∀ k, k ∉ keysOf (loop1 m es).1 → (loop1 m es).2 k = m k) := by
  induction es generalizing m with
  | nil => simp [loop1_nil, keysOf]
  | cons g gs ih =>
    cases hm : m g.key with
    | some g' =>
      by_cases he : Field.Equals g' g = true
      · rw [loop1_keep gs hm he]
        obtain ⟨ih1, ih2, ih3⟩ := ih (mapErase m g.key)
        have hout : g.key ∉ keysOf (loop1 (mapErase m g.key) gs).1 :=
          loop1_not_mem_of_none (by rw [mapErase_apply, if_pos rfl])
        rw [keysOf_cons]
        refine ⟨List.nodup_cons.2 ⟨hout, ih1⟩, ?_, ?_⟩
        · intro k hk
          rcases List.mem_cons.1 hk with hk | hk
          · subst hk
            rw [ih3 _ hout, mapErase_apply, if_pos rfl]
          · exact ih2 _ hk
        · intro k hk
          have hk1 : k ≠ g.key := fun h => hk (h ▸ List.mem_cons_self _ _)
          have hk2 : k ∉ keysOf (loop1 (mapErase m g.key) gs).1 :=
            fun h => hk (List.mem_cons_of_mem _ h)
          rw [ih3 _ hk2, mapErase_ne _ _ _ hk1]
      · rw [loop1_skip_ne gs hm he]
        exact ih m
    | none =>
      rw [loop1_skip_none gs hm]
      exact ih m

theorem loop2_keys (fs : List Field) (m : FieldMap) :
    (keysOf (loop2 m fs).1).Nodup ∧
      (∀ k, k ∈ keysOf (loop2 m fs).1 → (loop2 m fs).2 k = none) ∧
      (∀ k, k ∉ keysOf (loop2 m fs).1 → (loop2 m fs).2 k = m k) := by
  induction fs generalizing m with
  | nil => simp [loop2_nil, keysOf]
  | cons g gs ih =>
    cases hm : m g.key with
    | some g' =>
      rw [loop2_keep gs hm]
      obtain ⟨ih1, ih2, ih3⟩ := ih (mapErase m g.key)
      have hout : g.key ∉ keysOf (loop2 (mapErase m g.key) gs).1 :=
        loop2_not_mem_of_none (by rw [mapErase_apply, if_pos rfl])
      rw [keysOf_cons]
      refine ⟨List.nodup_cons.2 ⟨hout, ih1⟩, ?_, ?_⟩
      · intro k hk
        rcases List.mem_cons.1 hk with hk | hk
        · subst hk
          rw [ih3 _ hout, mapErase_apply, if_pos rfl]
        · exact ih2 _ hk
      · intro k hk
        have hk1 : k ≠ g.key := fun h => hk (h ▸ List.mem_cons_self _ _)
        have hk2 : k ∉ keysOf (loop2 (mapErase m g.key) gs).1 :=
          fun h => hk (List.mem_cons_of_mem _ h)
        rw [ih3 _ hk2, mapErase_ne _ _ _ hk1]
    | none =>
      rw [loop2_skip gs hm]
      exact ih m

end Ctxzap

namespace Ctxzap

theorem lookupField_cons (f : Field) (fs : List Field) (k : String) :
    lookupField (f :: fs) k = if f.key = k then some f else lookupField fs k := rfl

theorem lookupField_exists {l : List Field} {k : String} (hk : k ∈ keysOf l) :
    ∃ e, lookupField l k = some e := by
  cases hl : lookupField l k with
  | none => exact absurd hk (lookupField_eq_none.1 hl)
  | some e => exact ⟨e, rfl⟩

theorem loop1_lookup {es : List Field} {m : FieldMap} {k : String} {e : Field}
    (h : lookupField (loop1 m es).1 k = some e) : m k = some e ∧ e ∈ es := by
  rcases lookupField_eq_some h with ⟨hmem, hkey⟩
  rcases loop1_mem hmem with ⟨h1, h2⟩
  rw [hkey] at h2
  exact ⟨h2, h1⟩

theorem loop1_congr {es : List Field} {m m' : FieldMap}
    (h : ∀ f ∈ es, m f.key = m' f.key) : (loop1 m es).1 = (loop1 m' es).1 := by
  induction es generalizing m m' with
  | nil => simp [loop1_nil]
  | cons g gs ih =>
    have hg : m g.key = m' g.key := h g (List.mem_cons_self _ _)
    have htail : ∀ f ∈ gs, m f.key = m' f.key :=
      fun f hf => h f (List.mem_cons_of_mem _ hf)
    have herase : ∀ f ∈ gs, mapErase m g.key f.key = mapErase m' g.key f.key := by
      intro f hf
      by_cases hk : f.key = g.key
      · rw [mapErase_apply, if_pos hk, mapErase_apply, if_pos hk]
      · rw [mapErase_ne _ _ _ hk, mapErase_ne _ _ _ hk]
        exact htail f hf
    cases hm : m g.key with
    | some g' =>
      have hm' : m' g.key = some g' := by rw [← hg, hm]
      by_cases he : Field.Equals g' g = true
      · rw [loop1_keep gs hm he, loop1_keep gs hm' he]
        show g :: (loop1 (mapErase m g.key) gs).1 = g :: (loop1 (mapErase m' g.key) gs).1
        rw [ih herase]
      · rw [loop1_skip_ne gs hm he, loop1_skip_ne gs hm' he]
        exact ih htail
    | none =>
      have hm' : m' g.key = none := by rw [← hg, hm]
      rw [loop1_skip_none gs hm, loop1_skip_none gs hm']
      exact ih htail

theorem loop1_filter {es : List Field} {m : FieldMap} (hnd : NodupKeys es) :
    (loop1 m es).1 = es.filter (fun f =>
      match m f.key with
      | some g => Field.Equals g f
      | none => false) := by
  induction es generalizing m with
  | nil => simp [loop1_nil]
  | cons g gs ih =>
    obtain ⟨hhead, hnd2⟩ := NodupKeys_cons.1 hnd
    have herase : ∀ f ∈ gs, mapErase m g.key f.key = m f.key :=
      fun f hf => mapErase_ne _ _ _ (hhead f hf)
    cases hm : m g.key with
    | some g' =>
      by_cases he : Field.Equals g' g = true
      · rw [loop1_keep gs hm he]
        show g :: (loop1 (mapErase m g.key) gs).1 = _
        rw [loop1_congr herase, ih hnd2, List.filter_cons]
        simp only [hm, he, if_true]
      · have hef : Field.Equals g' g = false := Bool.eq_false_iff.2 he
        rw [loop1_skip_ne gs hm he, ih hnd2, List.filter_cons]
        simp only [hm, hef, Bool.false_eq_true, if_false]
    | none =>
      rw [loop1_skip_none gs hm, ih hnd2, List.filter_cons]
      simp only [hm, Bool.false_eq_true, if_false]

theorem loop2_congr {fs : List Field} {m m' : FieldMap}
    (h : ∀ f ∈ fs, m f.key = m' f.key) : (loop2 m fs).1 = (loop2 m' fs).1 := by
  induction fs generalizing m m' with
  | nil => simp [loop2_nil]
  | cons g gs ih =>
    have hg : m g.key = m' g.key := h g (List.mem_cons_self _ _)
    have htail : ∀ f ∈ gs, m f.key = m' f.key :=
      fun f hf => h f (List.mem_cons_of_mem _ hf)
    have herase : ∀ f ∈ gs, mapErase m g.key f.key = mapErase m' g.key f.key := by
      intro f hf
      by_cases hk : f.key = g.key
      · rw [mapErase_apply, if_pos hk, mapErase_apply, if_pos hk]
      · rw [mapErase_ne _ _ _ hk, mapErase_ne _ _ _ hk]
        exact htail f hf
    cases hm : m g.key with
    | some g' =>
      have hm' : m' g.key = some g' := by rw [← hg, hm]
      rw [loop2_keep gs hm, loop2_keep gs hm']
      show g :: (loop2 (mapErase m g.key) gs).1 = g :: (loop2 (mapErase m' g.key) gs).1
      rw [ih herase]
    | none =>
      have hm' : m' g.key = none := by rw [← hg, hm]
      rw [loop2_skip gs hm, loop2_skip gs hm']
      exact ih htail

theorem loop2_filter {fs : List Field} {m : FieldMap} (hnd : NodupKeys fs) :
    (loop2 m fs).1 = fs.filter (fun f => (m f.key).isSome) := by
  induction fs generalizing m with
  | nil => simp [loop2_nil]
  | cons g gs ih =>
    obtain ⟨hhead, hnd2⟩ := NodupKeys_cons.1 hnd
    have herase : ∀ f ∈ gs, mapErase m g.key f.key = m f.key :=
      fun f hf => mapErase_ne _ _ _ (hhead f hf)
    cases hm : m g.key with
    | some g' =>
      rw [loop2_keep gs hm]
      show g :: (loop2 (mapErase m g.key) gs).1 = _
      rw [loop2_congr herase, ih hnd2, List.filter_cons]
      simp only [hm, Option.isSome_some, if_true]
    | none =>
      rw [loop2_skip gs hm, ih hnd2, List.filter_cons]
      simp only [hm, Option.isSome_none, Bool.false_eq_true, if_false]

theorem loop1_keys_sub {es : List Field} {m : FieldMap} {k : String} {v : Field}
    (hv : m k = some v) (hmem : v ∈ es) (hkey : v.key = k) :
    k ∈ keysOf (loop1 m es).1 := by
  induction es generalizing m with
  | nil => simp at hmem
  | cons g gs ih =>
    cases hm : m g.key with
    | some g' =>
      by_cases he : Field.Equals g' g = true
      · rw [loop1_keep gs hm he]
        show k ∈ keysOf (g :: (loop1 (mapErase m g.key) gs).1)
        rw [keysOf_cons]
        by_cases hvg : v = g
        · exact List.mem_cons.2 (Or.inl (by rw [← hkey, hvg]))
        · have hvgs : v ∈ gs := by
            rcases List.mem_cons.1 hmem with h | h
            · exact absurd h hvg
            · exact h
          have hkg : k ≠ g.key := by
            intro hk
            rw [hk] at hv
            rw [hv] at hm
            have : v = g' := by injection hm
            rw [this] at hvg
            exact hvg ((Field.Equals_iff _ _).1 he)
          have hv' : mapErase m g.key k = some v := by
            rw [mapErase_ne _ _ _ hkg]
            exact hv
          exact List.mem_cons.2 (Or.inr (ih hv' hvgs))
      · rw [loop1_skip_ne gs hm he]
        have hvgs : v ∈ gs := by
          rcases List.mem_cons.1 hmem with h | h
          · exfalso
            rw [h] at hv hkey
            rw [← hkey, hm] at hv
            have hgg : g' = g := by injection hv
            rw [hgg] at he
            exact he (Field.Equals_self g)
          · exact h
        exact ih hv hvgs
    | none =>
      rw [loop1_skip_none gs hm]
      have hvgs : v ∈ gs := by
        rcases List.mem_cons.1 hmem with h | h
        · exfalso
          rw [h] at hv hkey
          rw [← hkey, hm] at hv
          cases hv
        · exact h
      exact ih hv hvgs

theorem loop2_keys_sub {fs : List Field} {m : FieldMap} {k : String} {v : Field}
    (hk : k ∈ keysOf fs) (hv : m k = some v) :
    k ∈ keysOf (loop2 m fs).1 := by
  induction fs generalizing m with
  | nil => simp [keysOf] at hk
  | cons g gs ih =>
    cases hm : m g.key with
    | some g' =>
      rw [loop2_keep gs hm]
      show k ∈ keysOf (g :: (loop2 (mapErase m g.key) gs).1)
      rw [keysOf_cons]
      by_cases hkg : k = g.key
      · exact List.mem_cons.2 (Or.inl hkg)
      · have hk2 : k ∈ keysOf gs := by
          rw [keysOf_cons] at hk
          rcases List.mem_cons.1 hk with h | h
          · exact absurd h hkg
          · exact h
        have hv' : mapErase m g.key k = some v := by
          rw [mapErase_ne _ _ _ hkg]
          exact hv
        exact List.mem_cons.2 (Or.inr (ih hk2 hv'))
    | none =>
      rw [loop2_skip gs hm]
      by_cases hkg : k = g.key
      · rw [hkg, hm] at hv
        cases hv
      · have hk2 : k ∈ keysOf gs := by
          rw [keysOf_cons] at hk
          rcases List.mem_cons.1 hk with h | h
          · exact absurd h hkg
          · exact h
        exact ih hk2 hv

theorem loop2_lookup {fs : List Field} {m : FieldMap} {k : String} {e : Field}
    (h : lookupField (loop2 m fs).1 k = some e) : lookupField fs k = some e := by
  induction fs generalizing m with
  | nil =>
    rw [loop2_nil] at h
    cases h
  | cons g gs ih =>
    cases hm : m g.key with
    | some g' =>
      rw [loop2_keep gs hm] at h
      replace h : lookupField (g :: (loop2 (mapErase m g.key) gs).1) k = some e := h
      rw [lookupField_cons] at h
      rw [lookupField_cons]
      by_cases hg : g.key = k
      · rw [if_pos hg] at h
        rw [if_pos hg]
        exact h
      · rw [if_neg hg] at h
        rw [if_neg hg]
        exact ih h
    | none =>
      rw [loop2_skip gs hm] at h
      rw [lookupField_cons]
      by_cases hg : g.key = k
      · exfalso
        rcases lookupField_eq_some h with ⟨hmem, hkey⟩
        rcases loop2_mem hmem with ⟨_, v, hv⟩
        rw [hkey, ← hg, hm] at hv
        cases hv
      · rw [if_neg hg]
        exact ih h

end Ctxzap

namespace Ctxzap

theorem buildMap_ex_apply (ex : List Field) (k : String) :
    buildMap ex emptyMap k =
      match lookupLast ex k with
      | some f => some f
      | none => none := by
  rw [buildMap_apply]
  cases lookupLast ex k <;> rfl

theorem m0_apply (ex inc : List Field) (k : String) :
    buildMap inc (buildMap ex emptyMap) k =
      match lookupLast inc k with
      | some f => some f
      | none =>
        match lookupLast ex k with
        | some f => some f
        | none => none := by
  rw [buildMap_apply]
  cases lookupLast inc k with
  | some f => rfl
  | none => exact buildMap_ex_apply ex k

theorem m0_some_inc {ex inc : List Field} {k : String} {f : Field}
    (h : lookupLast inc k = some f) :
    buildMap inc (buildMap ex emptyMap) k = some f := by
  rw [m0_apply, h]

theorem m0_none_inc_some_ex {ex inc : List Field} {k : String} {f : Field}
    (hi : lookupLast inc k = none) (he : lookupLast ex k = some f) :
    buildMap inc (buildMap ex emptyMap) k = some f := by
  rw [m0_apply, hi, he]

theorem lookupLast_of_mem {l : List Field} {f : Field}
    (hnd : NodupKeys l) (hf : f ∈ l) : lookupLast l f.key = some f := by
  rw [lookupLast_of_nodup hnd]
  exact lookupField_of_mem hnd hf

/-- The existing-fields pass of `MergeFields`, characterized for unique-keyed
inputs. -/
theorem loop1_eq_keepExisting {ex inc : List Field}
    (hndex : NodupKeys ex) (hndinc : NodupKeys inc) :
    (loop1 (buildMap inc (buildMap ex emptyMap)) ex).1 = keepExisting ex inc := by
  rw [loop1_filter hndex]
  unfold keepExisting
  apply List.filter_congr
  intro f hf
  cases hic : lookupField inc f.key with
  | some g =>
    have hlast : lookupLast inc f.key = some g := by
      rw [lookupLast_of_nodup hndinc]
      exact hic
    rw [m0_some_inc hlast]
  | none =>
    have hlast : lookupLast inc f.key = none := by
      rw [lookupLast_of_nodup hndinc]
      exact hic
    have hex : lookupLast ex f.key = some f := lookupLast_of_mem hndex hf
    rw [m0_none_inc_some_ex hlast hex]
    simp [Field.Equals_self]

/-- The incoming-fields pass of `MergeFields`, characterized for unique-keyed
inputs. -/
theorem loop2_eq_appendIncoming {ex inc : List Field}
    (hndex : NodupKeys ex) (hndinc : NodupKeys inc) :
    (loop2 ((loop1 (buildMap inc (buildMap ex emptyMap)) ex).2) inc).1 =
      appendIncoming ex inc := by
  rw [loop2_filter hndinc]
  unfold appendIncoming
  apply List.filter_congr
  intro f hf
  obtain ⟨hk1, hk2, hk3⟩ := loop1_keys ex (buildMap inc (buildMap ex emptyMap))
  have hm0f : buildMap inc (buildMap ex emptyMap) f.key = some f :=
    m0_some_inc (lookupLast_of_mem hndinc hf)
  by_cases hmem : f.key ∈ keysOf (loop1 (buildMap inc (buildMap ex emptyMap)) ex).1
  · -- the key was already emitted by the first pass: the incoming field is
    -- identical to the existing one, and the second pass drops it
    rw [hk2 _ hmem]
    rw [loop1_eq_keepExisting hndex hndinc] at hmem
    rcases mem_keysOf.1 hmem with ⟨e, he, hek⟩
    rcases List.mem_filter.1 he with ⟨heex, hpred⟩
    have hlf : lookupField ex f.key = some e := by
      rw [← hek]
      exact lookupField_of_mem hndex heex
    have hinc : lookupField inc e.key = some f := by
      rw [hek]
      exact lookupField_of_mem hndinc hf
    rw [hinc] at hpred
    have hfe : f = e := (Field.Equals_iff _ _).1 hpred
    rw [hlf, ← hfe]
    simp [Field.Equals_self]
  · -- fresh key for the second pass: the incoming field is appended
    rw [hk3 _ hmem, hm0f]
    cases hlf : lookupField ex f.key with
    | none => rfl
    | some e =>
      have hef : ¬e = f := by
        intro hef
        apply hmem
        rw [loop1_eq_keepExisting hndex hndinc]
        apply mem_keysOf.2
        refine ⟨e, List.mem_filter.2 ⟨(lookupField_eq_some hlf).1, ?_⟩,
          (lookupField_eq_some hlf).2⟩
        have hinc : lookupField inc e.key = some f := by
          rw [(lookupField_eq_some hlf).2]
          exact lookupField_of_mem hndinc hf
        rw [hinc]
        rw [hef]
        exact Field.Equals_self f
      simp [Field.Equals, hef]

/-- For unique-keyed nonempty inputs, `MergeFields` is exactly: existing
fields kept in place (key absent from incoming, or incoming field identical),
followed by the genuinely new or changed incoming fields. -/
theorem mergeFields_char {ex inc : List Field} (hex : ex ≠ []) (hinc : inc ≠ [])
    (hndex : NodupKeys ex) (hndinc : NodupKeys inc) :
    MergeFields ex inc = keepExisting ex inc ++ appendIncoming ex inc := by
  rw [mergeFields_eq_loops ex inc hex hinc, loop1_eq_keepExisting hndex hndinc,
    loop2_eq_appendIncoming hndex hndinc]

end Ctxzap

namespace Ctxzap

theorem mergeFields_nil_left (inc : List Field) : MergeFields [] inc = inc := rfl

theorem mergeFields_nil_right (ex : List Field) : MergeFields ex [] = ex := by
  by_cases h : ex.length = 0
  · have hnil : ex = [] := List.length_eq_zero.1 h
    rw [hnil]
    rfl
  · simp [MergeFields, h]

theorem mergeFields_mem {ex inc : List Field} {f : Field}
    (h : f ∈ MergeFields ex inc) : f ∈ ex ∨ f ∈ inc := by
  by_cases hex : ex = []
  · rw [hex, mergeFields_nil_left] at h
    exact Or.inr h
  · by_cases hinc : inc = []
    · rw [hinc, mergeFields_nil_right] at h
      exact Or.inl h
    · rw [mergeFields_eq_loops ex inc hex hinc] at h
      rcases List.mem_append.1 h with h | h
      · exact Or.inl (loop1_mem h).1
      · exact Or.inr (loop2_mem h).1

theorem mergeFields_length (ex inc : List Field) :
    (MergeFields ex inc).length ≤ ex.length + inc.length := by
  by_cases hex : ex = []
  · rw [hex, mergeFields_nil_left]
    simp
  · by_cases hinc : inc = []
    · rw [hinc, mergeFields_nil_right]
      simp
    · rw [mergeFields_eq_loops ex inc hex hinc, List.length_append]
      exact Nat.add_le_add (loop1_length _ _) (loop2_length _ _)

theorem mergeFields_NodupKeys_of_nonempty {ex inc : List Field}
    (hex : ex ≠ []) (hinc : inc ≠ []) : NodupKeys (MergeFields ex inc) := by
  rw [mergeFields_eq_loops ex inc hex hinc]
  unfold NodupKeys
  rw [keysOf_append]
  obtain ⟨h11, h12, h13⟩ := loop1_keys ex (buildMap inc (buildMap ex emptyMap))
  obtain ⟨h21, h22, h23⟩ :=
    loop2_keys inc ((loop1 (buildMap inc (buildMap ex emptyMap)) ex).2)
  refine List.Nodup.append h11 h21 ?_
  intro k hk1 hk2
  rcases mem_keysOf.1 hk2 with ⟨f, hf, hfk⟩
  rcases loop2_mem hf with ⟨_, v, hv⟩
  rw [hfk, h12 _ hk1] at hv
  cases hv

theorem copySlice_eq (fs : List Field) : copySlice fs = fs := List.map_id fs

theorem FieldsFromContext_withFieldsVal (p : Ctx) (fs : List Field) :
    FieldsFromContext (some (Ctx.withFieldsVal p fs)) = fs := by
  simp [FieldsFromContext, Ctx.value, copySlice_eq]

theorem withFields_of_no_fields {ctx : Ctx} {fs : List Field}
    (hfs : fs ≠ []) (hctx : FieldsFromContext (some ctx) = []) :
    WithFields ctx fs = Ctx.withFieldsVal ctx fs := by
  unfold WithFields
  rw [if_neg (by simpa using hfs), hctx]
  rfl

theorem withFields_of_fields {ctx : Ctx} {fs : List Field}
    (hfs : fs ≠ []) (hctx : FieldsFromContext (some ctx) ≠ []) :
    WithFields ctx fs =
      Ctx.withFieldsVal ctx (MergeFields (FieldsFromContext (some ctx)) fs) := by
  unfold WithFields
  rw [if_neg (by simpa using hfs), if_neg (by simpa using hctx)]

theorem NodupKeys_key_inj {l : List Field} {e g : Field}
    (hnd : NodupKeys l) (he : e ∈ l) (hg : g ∈ l) (hk : g.key = e.key) : g = e := by
  have h1 : lookupField l e.key = some e := lookupField_of_mem hnd he
  have h2 : lookupField l g.key = some g := lookupField_of_mem hnd hg
  rw [hk, h1] at h2
  injection h2 with h2
  exact h2.symm

/-- The duplicated-key behaviour of the two rebuild loops: exactly one field
with the key is emitted; it is the map's field (the last occurrence) when that
field sits in the existing slice, and otherwise the first occurrence of the
key in the incoming slice. -/
theorem loops_dup_key (ex inc : List Field) (m : FieldMap) (k : String)
    (l f : Field) (hm : m k = some l) (hlkey : l.key = k)
    (hkinc : k ∈ keysOf inc) (hf : lookupField inc k = some f) :
    countKey ((loop1 m ex).1 ++ (loop2 ((loop1 m ex).2) inc).1) k = 1 ∧
      lookupField ((loop1 m ex).1 ++ (loop2 ((loop1 m ex).2) inc).1) k =
        some (if l ∈ ex then l else f) := by
  obtain ⟨h11, h12, h13⟩ := loop1_keys ex m
  obtain ⟨h21, h22, h23⟩ := loop2_keys inc ((loop1 m ex).2)
  by_cases hmem : l ∈ ex
  · have hk1 : k ∈ keysOf (loop1 m ex).1 := loop1_keys_sub hm hmem hlkey
    rcases lookupField_exists hk1 with ⟨e, he⟩
    obtain ⟨hme, hee⟩ := loop1_lookup he
    rw [hm] at hme
    have hel : e = l := by injection hme with hme; exact hme.symm
    have hnone : (loop1 m ex).2 k = none := h12 _ hk1
    have hk2 : k ∉ keysOf (loop2 ((loop1 m ex).2) inc).1 :=
      loop2_not_mem_of_none hnone
    constructor
    · unfold countKey
      rw [keysOf_append, List.count_append,
        List.count_eq_one_of_mem h11 hk1, List.count_eq_zero_of_not_mem hk2]
    · rw [lookupField_append, he, if_pos hmem]
      simp [hel]
  · have hk1 : k ∉ keysOf (loop1 m ex).1 := by
      intro hk
      rcases lookupField_exists hk with ⟨e, he⟩
      rcases loop1_lookup he with ⟨hme, hee⟩
      rw [hm] at hme
      have : l = e := by injection hme
      rw [← this] at hee
      exact hmem hee
    have hm1 : (loop1 m ex).2 k = some l := by
      rw [h13 _ hk1]
      exact hm
    have hk2 : k ∈ keysOf (loop2 ((loop1 m ex).2) inc).1 :=
      loop2_keys_sub hkinc hm1
    constructor
    · unfold countKey
      rw [keysOf_append, List.count_append,
        List.count_eq_zero_of_not_mem hk1, List.count_eq_one_of_mem h21 hk2]
    · rw [lookupField_append, lookupField_eq_none.2 hk1]
      rcases lookupField_exists hk2 with ⟨e, he⟩
      have hie : lookupField inc k = some e := loop2_lookup he
      rw [hf] at hie
      have hfe : f = e := by injection hie
      rw [he, if_neg hmem]
      simp [hfe]

end Ctxzap

namespace Ctxzap

theorem withFields_keys_sub (ctx : Ctx) (fs : List Field) (k : String)
    (hfs : fs ≠ [])
    (hk : k ∈ keysOf (FieldsFromContext (some (WithFields ctx fs)))) :
    k ∈ keysOf (FieldsFromContext (some ctx)) ∨ k ∈ keysOf fs := by
  by_cases hctx : FieldsFromContext (some ctx) = []
  · rw [withFields_of_no_fields hfs hctx, FieldsFromContext_withFieldsVal] at hk
    exact Or.inr hk
  · rw [withFields_of_fields hfs hctx, FieldsFromContext_withFieldsVal] at hk
    rcases mem_keysOf.1 hk with ⟨f, hf, hfk⟩
    rcases mergeFields_mem hf with h | h
    · exact Or.inl (mem_keysOf.2 ⟨f, h, hfk⟩)
    · exact Or.inr (mem_keysOf.2 ⟨f, h, hfk⟩)

/-- Claim C5: attaching an empty field collection is the identity — the very
same handle is returned (no new association), and its fields are unchanged. -/
theorem withFields_empty_identity (ctx : Ctx) :
    WithFields ctx [] = ctx ∧
      FieldsFromContext (some (WithFields ctx [])) = FieldsFromContext (some ctx) := by
  have h : WithFields ctx [] = ctx := rfl
  exact ⟨h, by rw [h]⟩

/-- Claim C8: `FieldsFromContext` is total: a nil handle, or a handle with no
field association anywhere in its ancestor chain, yields the empty collection
rather than an error; `WithFields` is likewise a total function of the
embedding. -/
theorem fieldsFromContext_total (ctx : Ctx) (hnoassoc : Ctx.value ctx = none) :
    FieldsFromContext none = [] ∧ FieldsFromContext (some ctx) = [] := by
  refine ⟨rfl, ?_⟩
  simp [FieldsFromContext, hnoassoc]

/-- Witness for C8 at a handle whose ancestor chain has no association. -/
theorem fieldsFromContext_total_witness :
    Ctx.value (Ctx.other Ctx.background) = none ∧
      FieldsFromContext none = [] ∧
      FieldsFromContext (some (Ctx.other Ctx.background)) = [] :=
  ⟨rfl, fieldsFromContext_total (Ctx.other Ctx.background) rfl⟩

/-- Claim C10: `MergeFields` fabricates nothing — every output field is one of
the inputs' fields, and the output is no longer than the inputs combined. -/
theorem mergeFields_no_fabrication (ex inc : List Field) (f : Field)
    (hf : f ∈ MergeFields ex inc) :
    (f ∈ ex ∨ f ∈ inc) ∧ (MergeFields ex inc).length ≤ ex.length + inc.length :=
  ⟨mergeFields_mem hf, mergeFields_length ex inc⟩

/-- Witness for C10 on concrete collections. -/
theorem mergeFields_no_fabrication_witness :
    (⟨"a", FieldValue.int 1⟩ : Field) ∈
        MergeFields [⟨"a", FieldValue.int 1⟩] [⟨"b", FieldValue.int 2⟩] ∧
      (((⟨"a", FieldValue.int 1⟩ : Field) ∈ ([⟨"a", FieldValue.int 1⟩] : List Field) ∨
          (⟨"a", FieldValue.int 1⟩ : Field) ∈ ([⟨"b", FieldValue.int 2⟩] : List Field)) ∧
        (MergeFields [⟨"a", FieldValue.int 1⟩] [⟨"b", FieldValue.int 2⟩]).length ≤
          ([⟨"a", FieldValue.int 1⟩] : List Field).length +
            ([⟨"b", FieldValue.int 2⟩] : List Field).length) :=
  ⟨by decide,
    mergeFields_no_fabrication [⟨"a", FieldValue.int 1⟩] [⟨"b", FieldValue.int 2⟩]
      ⟨"a", FieldValue.int 1⟩ (by decide)⟩

/-- Claim C6: attaching nonempty collections to a common parent yields fresh
child handles of that parent (the parent's association is untouched), and each
child's visible keys come only from the parent's fields and its own attached
collection — never from the sibling's. -/
theorem withFields_independence (ctx : Ctx) (f1 f2 : List Field) (k : String)
    (h1 : f1 ≠ []) (h2 : f2 ≠ []) :
    (∃ gs, WithFields ctx f1 = Ctx.withFieldsVal ctx gs) ∧
      (∃ gs, WithFields ctx f2 = Ctx.withFieldsVal ctx gs) ∧
      (k ∈ keysOf (FieldsFromContext (some (WithFields ctx f1))) →
        k ∈ keysOf (FieldsFromContext (some ctx)) ∨ k ∈ keysOf f1) ∧
      (k ∈ keysOf (FieldsFromContext (some (WithFields ctx f2))) →
        k ∈ keysOf (FieldsFromContext (some ctx)) ∨ k ∈ keysOf f2) := by
  refine ⟨?_, ?_, withFields_keys_sub ctx f1 k h1, withFields_keys_sub ctx f2 k h2⟩
  · by_cases hctx : FieldsFromContext (some ctx) = []
    · exact ⟨f1, withFields_of_no_fields h1 hctx⟩
    · exact ⟨_, withFields_of_fields h1 hctx⟩
  · by_cases hctx : FieldsFromContext (some ctx) = []
    · exact ⟨f2, withFields_of_no_fields h2 hctx⟩
    · exact ⟨_, withFields_of_fields h2 hctx⟩

/-- Witness for C6 on concrete sibling attachments. -/
theorem withFields_independence_witness :
    ([⟨"x", FieldValue.int 1⟩] : List Field) ≠ [] ∧
      ([⟨"y", FieldValue.int 2⟩] : List Field) ≠ [] ∧
      ((∃ gs, WithFields Ctx.background [⟨"x", FieldValue.int 1⟩] =
          Ctx.withFieldsVal Ctx.background gs) ∧
        (∃ gs, WithFields Ctx.background [⟨"y", FieldValue.int 2⟩] =
          Ctx.withFieldsVal Ctx.background gs) ∧
        ("y" ∈ keysOf (FieldsFromContext (some (WithFields Ctx.background
            [⟨"x", FieldValue.int 1⟩]))) →
          "y" ∈ keysOf (FieldsFromContext (some Ctx.background)) ∨
            "y" ∈ keysOf [⟨"x", FieldValue.int 1⟩]) ∧
        ("y" ∈ keysOf (FieldsFromContext (some (WithFields Ctx.background
            [⟨"y", FieldValue.int 2⟩]))) →
          "y" ∈ keysOf (FieldsFromContext (some Ctx.background)) ∨
            "y" ∈ keysOf [⟨"y", FieldValue.int 2⟩])) :=
  ⟨by decide, by decide,
    withFields_independence Ctx.background [⟨"x", FieldValue.int 1⟩]
      [⟨"y", FieldValue.int 2⟩] "y" (by decide) (by decide)⟩

/-- Claim C3 counterexample: with `existing` empty (vacuously unique-keyed)
and a duplicate-keyed `incoming`, the fast path returns `incoming` verbatim,
so the result — and the collection `WithFields` associates — has two fields
with the same key. -/
theorem mergeFields_unique_counterexample :
    NodupKeys ([] : List Field) ∧
      ¬NodupKeys (MergeFields []
        [⟨"k", FieldValue.int 1⟩, ⟨"k", FieldValue.int 2⟩]) ∧
      ¬NodupKeys (FieldsFromContext (some (WithFields Ctx.background
        [⟨"k", FieldValue.int 1⟩, ⟨"k", FieldValue.int 2⟩]))) := by
  decide

/-- Claim C3 (amended): the merge result is unique-keyed provided `incoming`
is itself unique-keyed or `existing` is nonempty (the empty-`existing` fast
path returns `incoming` verbatim); correspondingly `WithFields` preserves
unique-keyed associations when the attached collection is unique-keyed. -/
theorem mergeFields_unique_keys (ex inc fs : List Field) (ctx : Ctx)
    (h1 : NodupKeys ex) (h2 : NodupKeys inc ∨ ex ≠ []) :
    NodupKeys (MergeFields ex inc) ∧
      (NodupKeys (FieldsFromContext (some ctx)) → NodupKeys fs →
        NodupKeys (FieldsFromContext (some (WithFields ctx fs)))) := by
  constructor
  · by_cases hex : ex = []
    · have hndinc : NodupKeys inc := by
        rcases h2 with h | h
        · exact h
        · exact absurd hex h
      rw [hex, mergeFields_nil_left]
      exact hndinc
    · by_cases hinc : inc = []
      · rw [hinc, mergeFields_nil_right]
        exact h1
      · exact mergeFields_NodupKeys_of_nonempty hex hinc
  · intro hctx hfs
    by_cases hfsnil : fs = []
    · rw [hfsnil]
      have h : WithFields ctx [] = ctx := rfl
      rw [h]
      exact hctx
    · by_cases hc : FieldsFromContext (some ctx) = []
      · rw [withFields_of_no_fields hfsnil hc, FieldsFromContext_withFieldsVal]
        exact hfs
      · rw [withFields_of_fields hfsnil hc, FieldsFromContext_withFieldsVal]
        exact mergeFields_NodupKeys_of_nonempty hc hfsnil

/-- Witness for the amended C3 on concrete collections. -/
theorem mergeFields_unique_keys_witness :
    NodupKeys ([⟨"a", FieldValue.int 1⟩] : List Field) ∧
      (NodupKeys ([⟨"k", FieldValue.int 2⟩] : List Field) ∨
        ([⟨"a", FieldValue.int 1⟩] : List Field) ≠ []) ∧
      (NodupKeys (MergeFields [⟨"a", FieldValue.int 1⟩] [⟨"k", FieldValue.int 2⟩]) ∧
        (NodupKeys (FieldsFromContext (some Ctx.background)) →
          NodupKeys ([⟨"b", FieldValue.int 3⟩] : List Field) →
          NodupKeys (FieldsFromContext (some (WithFields Ctx.background
            [⟨"b", FieldValue.int 3⟩]))))) :=
  ⟨by decide, Or.inr (by decide),
    mergeFields_unique_keys [⟨"a", FieldValue.int 1⟩] [⟨"k", FieldValue.int 2⟩]
      [⟨"b", FieldValue.int 3⟩] Ctx.background (by decide) (Or.inr (by decide))⟩

/-- Claim C2 counterexample: with `existing` empty the duplicate survives
(two fields with key `k`), and with `existing` nonempty the surviving value is
the FIRST occurrence of the key in `incoming`, not the last. -/
theorem mergeFields_dup_incoming_counterexample :
    MergeFields [] [⟨"k", FieldValue.int 1⟩, ⟨"k", FieldValue.int 2⟩] =
        [⟨"k", FieldValue.int 1⟩, ⟨"k", FieldValue.int 2⟩] ∧
      countKey (MergeFields []
        [⟨"k", FieldValue.int 1⟩, ⟨"k", FieldValue.int 2⟩]) "k" = 2 ∧
      MergeFields [⟨"a", FieldValue.int 0⟩]
          [⟨"k", FieldValue.int 1⟩, ⟨"k", FieldValue.int 2⟩] =
        [⟨"a", FieldValue.int 0⟩, ⟨"k", FieldValue.int 1⟩] ∧
      lookupField (MergeFields [⟨"a", FieldValue.int 0⟩]
          [⟨"k", FieldValue.int 1⟩, ⟨"k", FieldValue.int 2⟩]) "k" ≠
        some ⟨"k", FieldValue.int 2⟩ := by
  decide

/-- Claim C2 (amended): for nonempty `existing` and an `incoming` containing
the key `k` more than once, the result has exactly one field with key `k`; it
is the LAST occurrence of `k` in `incoming` when `existing` contains a field
identical to that last occurrence, and otherwise the FIRST occurrence of `k`
in `incoming`. -/
theorem mergeFields_dup_incoming_key (ex inc : List Field) (k : String)
    (l f : Field) (hex : ex ≠ []) (hdup : 2 ≤ countKey inc k)
    (hl : lookupLast inc k = some l) (hf : lookupField inc k = some f) :
    countKey (MergeFields ex inc) k = 1 ∧
      lookupField (MergeFields ex inc) k = some (if l ∈ ex then l else f) := by
  have hinc : inc ≠ [] := by
    intro h
    rw [h] at hdup
    norm_num [countKey, keysOf] at hdup
  have hkinc : k ∈ keysOf inc := by
    rcases lookupField_eq_some hf with ⟨hm, hk⟩
    exact mem_keysOf.2 ⟨f, hm, hk⟩
  have hlkey : l.key = k := (lookupLast_eq_some hl).2
  rw [mergeFields_eq_loops ex inc hex hinc]
  exact loops_dup_key ex inc _ k l f (m0_some_inc hl) hlkey hkinc hf

/-- Witness for the amended C2 on concrete collections. -/
theorem mergeFields_dup_incoming_key_witness :
    ([⟨"a", FieldValue.int 0⟩] : List Field) ≠ [] ∧
      2 ≤ countKey [⟨"k", FieldValue.int 1⟩, ⟨"k", FieldValue.int 2⟩] "k" ∧
      lookupLast [⟨"k", FieldValue.int 1⟩, ⟨"k", FieldValue.int 2⟩] "k" =
        some ⟨"k", FieldValue.int 2⟩ ∧
      lookupField [⟨"k", FieldValue.int 1⟩, ⟨"k", FieldValue.int 2⟩] "k" =
        some ⟨"k", FieldValue.int 1⟩ ∧
      (countKey (MergeFields [⟨"a", FieldValue.int 0⟩]
          [⟨"k", FieldValue.int 1⟩, ⟨"k", FieldValue.int 2⟩]) "k" = 1 ∧
        lookupField (MergeFields [⟨"a", FieldValue.int 0⟩]
            [⟨"k", FieldValue.int 1⟩, ⟨"k", FieldValue.int 2⟩]) "k" =
          some (if (⟨"k", FieldValue.int 2⟩ : Field) ∈
              ([⟨"a", FieldValue.int 0⟩] : List Field) then
            (⟨"k", FieldValue.int 2⟩ : Field) else ⟨"k", FieldValue.int 1⟩)) :=
  ⟨by decide, by decide, by decide, by decide,
    mergeFields_dup_incoming_key [⟨"a", FieldValue.int 0⟩]
      [⟨"k", FieldValue.int 1⟩, ⟨"k", FieldValue.int 2⟩] "k"
      ⟨"k", FieldValue.int 2⟩ ⟨"k", FieldValue.int 1⟩
      (by decide) (by decide) (by decide) (by decide)⟩

end Ctxzap

namespace Ctxzap

/-- Claim C1 counterexample: both inputs are unique-keyed, yet `MergeFields`
differs from the two-pass reference — an incoming field identical to the
existing field with its key stays at the existing position instead of moving
to `incoming`'s position. -/
theorem mergeFields_twoPass_counterexample :
    NodupKeys ([⟨"a", FieldValue.int 1⟩, ⟨"b", FieldValue.int 2⟩] : List Field) ∧
      NodupKeys ([⟨"c", FieldValue.int 3⟩, ⟨"b", FieldValue.int 2⟩] : List Field) ∧
      MergeFields [⟨"a", FieldValue.int 1⟩, ⟨"b", FieldValue.int 2⟩]
          [⟨"c", FieldValue.int 3⟩, ⟨"b", FieldValue.int 2⟩] =
        [⟨"a", FieldValue.int 1⟩, ⟨"b", FieldValue.int 2⟩, ⟨"c", FieldValue.int 3⟩] ∧
      mergeTwoPass [⟨"a", FieldValue.int 1⟩, ⟨"b", FieldValue.int 2⟩]
          [⟨"c", FieldValue.int 3⟩, ⟨"b", FieldValue.int 2⟩] =
        [⟨"a", FieldValue.int 1⟩, ⟨"c", FieldValue.int 3⟩, ⟨"b", FieldValue.int 2⟩] ∧
      MergeFields [⟨"a", FieldValue.int 1⟩, ⟨"b", FieldValue.int 2⟩]
          [⟨"c", FieldValue.int 3⟩, ⟨"b", FieldValue.int 2⟩] ≠
        mergeTwoPass [⟨"a", FieldValue.int 1⟩, ⟨"b", FieldValue.int 2⟩]
          [⟨"c", FieldValue.int 3⟩, ⟨"b", FieldValue.int 2⟩] := by
  decide

/-- Claim C1 (amended): for unique-keyed inputs, `MergeFields` equals the
two-pass reference provided no incoming field is identical (same key, kind and
value) to the existing field carrying its key — i.e. every override actually
changes the field. -/
theorem mergeFields_eq_twoPass (ex inc : List Field)
    (hndex : NodupKeys ex) (hndinc : NodupKeys inc)
    (hno : ∀ f ∈ inc, lookupField ex f.key ≠ some f) :
    MergeFields ex inc = mergeTwoPass ex inc := by
  by_cases hex : ex = []
  · rw [hex, mergeFields_nil_left]
    unfold mergeTwoPass
    simp
  · by_cases hinc : inc = []
    · rw [hinc, mergeFields_nil_right]
      unfold mergeTwoPass
      rw [List.append_nil, List.filter_eq_self.2]
      intro f _
      simp [hasKey, lookupField]
    · rw [mergeFields_char hex hinc hndex hndinc]
      unfold mergeTwoPass keepExisting appendIncoming
      congr 1
      · apply List.filter_congr
        intro e hee
        cases hle : lookupField inc e.key with
        | none =>
          simp [hasKey, hle]
        | some g =>
          have hne : ¬g = e := by
            intro hge
            rcases lookupField_eq_some hle with ⟨hgm, hgk⟩
            apply hno g hgm
            rw [hgk, hge]
            exact lookupField_of_mem hndex hee
          have hef : Field.Equals g e = false := by
            simp [Field.Equals]
            exact hne
          simp [hasKey, hle, hef]
      · rw [List.filter_eq_self.2]
        intro f hf
        cases hle : lookupField ex f.key with
        | none => simp [hle]
        | some g =>
          have hne : ¬g = f := by
            intro hgf
            exact hno f hf (hgf ▸ hle)
          have hef : Field.Equals g f = false := by
            simp [Field.Equals]
            exact hne
          simp [hle, hef]

/-- Witness for the amended C1 on the spec's own override example. -/
theorem mergeFields_eq_twoPass_witness :
    NodupKeys ([⟨"a", FieldValue.int 1⟩, ⟨"b", FieldValue.int 2⟩] : List Field) ∧
      NodupKeys ([⟨"b", FieldValue.int 20⟩, ⟨"c", FieldValue.int 3⟩] : List Field) ∧
      (∀ f ∈ ([⟨"b", FieldValue.int 20⟩, ⟨"c", FieldValue.int 3⟩] : List Field),
        lookupField [⟨"a", FieldValue.int 1⟩, ⟨"b", FieldValue.int 2⟩] f.key ≠ some f) ∧
      MergeFields [⟨"a", FieldValue.int 1⟩, ⟨"b", FieldValue.int 2⟩]
          [⟨"b", FieldValue.int 20⟩, ⟨"c", FieldValue.int 3⟩] =
        mergeTwoPass [⟨"a", FieldValue.int 1⟩, ⟨"b", FieldValue.int 2⟩]
          [⟨"b", FieldValue.int 20⟩, ⟨"c", FieldValue.int 3⟩] :=
  ⟨by decide, by decide, by decide,
    mergeFields_eq_twoPass [⟨"a", FieldValue.int 1⟩, ⟨"b", FieldValue.int 2⟩]
      [⟨"b", FieldValue.int 20⟩, ⟨"c", FieldValue.int 3⟩]
      (by decide) (by decide) (by decide)⟩

/-- Claim C9: when an incoming field is identical (same key, kind and value)
to an existing field, `MergeFields` keeps it at the existing field's position
— within the preserved existing prefix, before all genuinely new incoming
fields — emits it exactly once, and emits no other field with that key. -/
theorem mergeFields_identical_override_position (ex inc : List Field) (e : Field)
    (hndex : NodupKeys ex) (hndinc : NodupKeys inc) (hee : e ∈ ex) (hei : e ∈ inc) :
    MergeFields ex inc = keepExisting ex inc ++ appendIncoming ex inc ∧
      e ∈ keepExisting ex inc ∧
      (∀ g ∈ appendIncoming ex inc, g.key ≠ e.key) ∧
      countKey (MergeFields ex inc) e.key = 1 := by
  have hex : ex ≠ [] := by
    intro h
    rw [h] at hee
    simp at hee
  have hinc : inc ≠ [] := by
    intro h
    rw [h] at hei
    simp at hei
  have hchar := mergeFields_char hex hinc hndex hndinc
  have hkeep : e ∈ keepExisting ex inc := by
    unfold keepExisting
    apply List.mem_filter.2
    refine ⟨hee, ?_⟩
    simp [lookupField_of_mem hndinc hei, Field.Equals_self]
  have happ : ∀ g ∈ appendIncoming ex inc, g.key ≠ e.key := by
    intro g hg hge
    rcases List.mem_filter.1 hg with ⟨hgi, hpred⟩
    have hgeq : g = e := NodupKeys_key_inj hndinc hei hgi hge
    rw [hgeq] at hpred
    simp [lookupField_of_mem hndex hee, Field.Equals_self] at hpred
  refine ⟨hchar, hkeep, happ, ?_⟩
  rw [hchar]
  unfold countKey
  rw [keysOf_append, List.count_append]
  have hc1 : (keysOf (keepExisting ex inc)).count e.key = 1 :=
    List.count_eq_one_of_mem (NodupKeys_filter _ hndex)
      (mem_keysOf.2 ⟨e, hkeep, rfl⟩)
  have hc2 : (keysOf (appendIncoming ex inc)).count e.key = 0 := by
    apply List.count_eq_zero_of_not_mem
    intro hmem
    rcases mem_keysOf.1 hmem with ⟨g, hg, hgk⟩
    exact happ g hg hgk
  rw [hc1, hc2]

/-- Witness for C9 on concrete collections with an identical override. -/
theorem mergeFields_identical_override_position_witness :
    NodupKeys ([⟨"a", FieldValue.int 1⟩, ⟨"b", FieldValue.int 2⟩] : List Field) ∧
      NodupKeys ([⟨"c", FieldValue.int 3⟩, ⟨"b", FieldValue.int 2⟩] : List Field) ∧
      (⟨"b", FieldValue.int 2⟩ : Field) ∈
        ([⟨"a", FieldValue.int 1⟩, ⟨"b", FieldValue.int 2⟩] : List Field) ∧
      (⟨"b", FieldValue.int 2⟩ : Field) ∈
        ([⟨"c", FieldValue.int 3⟩, ⟨"b", FieldValue.int 2⟩] : List Field) ∧
      (MergeFields [⟨"a", FieldValue.int 1⟩, ⟨"b", FieldValue.int 2⟩]
            [⟨"c", FieldValue.int 3⟩, ⟨"b", FieldValue.int 2⟩] =
          keepExisting [⟨"a", FieldValue.int 1⟩, ⟨"b", FieldValue.int 2⟩]
              [⟨"c", FieldValue.int 3⟩, ⟨"b", FieldValue.int 2⟩] ++
            appendIncoming [⟨"a", FieldValue.int 1⟩, ⟨"b", FieldValue.int 2⟩]
              [⟨"c", FieldValue.int 3⟩, ⟨"b", FieldValue.int 2⟩] ∧
        (⟨"b", FieldValue.int 2⟩ : Field) ∈
          keepExisting [⟨"a", FieldValue.int 1⟩, ⟨"b", FieldValue.int 2⟩]
            [⟨"c", FieldValue.int 3⟩, ⟨"b", FieldValue.int 2⟩] ∧
        (∀ g ∈ appendIncoming [⟨"a", FieldValue.int 1⟩, ⟨"b", FieldValue.int 2⟩]
            [⟨"c", FieldValue.int 3⟩, ⟨"b", FieldValue.int 2⟩],
          g.key ≠ (⟨"b", FieldValue.int 2⟩ : Field).key) ∧
        countKey (MergeFields [⟨"a", FieldValue.int 1⟩, ⟨"b", FieldValue.int 2⟩]
          [⟨"c", FieldValue.int 3⟩, ⟨"b", FieldValue.int 2⟩])
          (⟨"b", FieldValue.int 2⟩ : Field).key = 1) :=
  ⟨by decide, by decide, by decide, by decide,
    mergeFields_identical_override_position
      [⟨"a", FieldValue.int 1⟩, ⟨"b", FieldValue.int 2⟩]
      [⟨"c", FieldValue.int 3⟩, ⟨"b", FieldValue.int 2⟩]
      ⟨"b", FieldValue.int 2⟩ (by decide) (by decide) (by decide) (by decide)⟩

end Ctxzap

namespace Ctxzap

/-- Claim C4: for unique-keyed inputs sharing a key, the merge result carries
`incoming`'s field for that key; in particular attaching `{k, old}` and then
`{k, new}` to a handle with no fields yields exactly the single field
`{k, new}`. -/
theorem mergeFields_override (ex inc : List Field) (k : String) (e f : Field)
    (ctx : Ctx) (oldv newv : FieldValue)
    (hndex : NodupKeys ex) (hndinc : NodupKeys inc)
    (he : lookupField ex k = some e) (hf : lookupField inc k = some f)
    (hctx : FieldsFromContext (some ctx) = []) :
    lookupField (MergeFields ex inc) k = some f ∧
      FieldsFromContext (some (WithFields (WithFields ctx [⟨k, oldv⟩])
        [⟨k, newv⟩])) = [⟨k, newv⟩] := by
  obtain ⟨hemem, hekey⟩ := lookupField_eq_some he
  obtain ⟨hfmem, hfkey⟩ := lookupField_eq_some hf
  constructor
  · have hex : ex ≠ [] := by
      intro h
      rw [h] at he
      cases he
    have hinc : inc ≠ [] := by
      intro h
      rw [h] at hf
      cases hf
    rw [mergeFields_char hex hinc hndex hndinc, lookupField_append]
    by_cases hfe : f = e
    · have hh : lookupField inc e.key = some f := by
        rw [hekey]
        exact hf
      have hkeepmem : e ∈ keepExisting ex inc := by
        unfold keepExisting
        apply List.mem_filter.2
        refine ⟨hemem, ?_⟩
        simp [hh, hfe, Field.Equals_self]
      have hndk : NodupKeys (keepExisting ex inc) := by
        unfold keepExisting
        exact NodupKeys_filter _ hndex
      have hlk : lookupField (keepExisting ex inc) k = some e := by
        have hx := lookupField_of_mem hndk hkeepmem
        rw [hekey] at hx
        exact hx
      rw [hlk]
      simp [hfe]
    · have hh : lookupField inc e.key = some f := by
        rw [hekey]
        exact hf
      have hnk : lookupField (keepExisting ex inc) k = none := by
        apply lookupField_eq_none.2
        intro hkmem
        rcases mem_keysOf.1 hkmem with ⟨e', he', hek'⟩
        rcases List.mem_filter.1 he' with ⟨he'ex, hpred⟩
        have hee' : e' = e := by
          have h1 := lookupField_of_mem hndex he'ex
          rw [hek', he] at h1
          injection h1 with h1
          exact h1.symm
        rw [hee'] at hpred
        simp only [hh] at hpred
        exact hfe ((Field.Equals_iff _ _).1 hpred)
      rw [hnk]
      have hh2 : lookupField ex f.key = some e := by
        rw [hfkey]
        exact he
      have hef : Field.Equals e f = false := by
        simp [Field.Equals]
        intro hc
        exact hfe hc.symm
      have happmem : f ∈ appendIncoming ex inc := by
        unfold appendIncoming
        apply List.mem_filter.2
        refine ⟨hfmem, ?_⟩
        simp [hh2, hef]
      have hnda : NodupKeys (appendIncoming ex inc) := by
        unfold appendIncoming
        exact NodupKeys_filter _ hndinc
      have hx := lookupField_of_mem hnda happmem
      rw [hfkey] at hx
      show lookupField (appendIncoming ex inc) k = some f
      exact hx
  · have hstep1 : WithFields ctx [⟨k, oldv⟩] = Ctx.withFieldsVal ctx [⟨k, oldv⟩] :=
      withFields_of_no_fields (by simp) hctx
    have hstep2 : WithFields (Ctx.withFieldsVal ctx [⟨k, oldv⟩]) [⟨k, newv⟩] =
        Ctx.withFieldsVal (Ctx.withFieldsVal ctx [⟨k, oldv⟩])
          (MergeFields
            (FieldsFromContext (some (Ctx.withFieldsVal ctx [⟨k, oldv⟩])))
            [⟨k, newv⟩]) :=
      withFields_of_fields (by simp) (by rw [FieldsFromContext_withFieldsVal]; simp)
    rw [hstep1, hstep2, FieldsFromContext_withFieldsVal,
      FieldsFromContext_withFieldsVal]
    have hnd1 : NodupKeys ([⟨k, oldv⟩] : List Field) := by simp [NodupKeys, keysOf]
    have hnd2 : NodupKeys ([⟨k, newv⟩] : List Field) := by simp [NodupKeys, keysOf]
    rw [mergeFields_char (by simp) (by simp) hnd1 hnd2]
    by_cases hov : oldv = newv
    · subst hov
      simp [keepExisting, appendIncoming, lookupField, Field.Equals]
    · have hov2 : ¬newv = oldv := fun h => hov h.symm
      simp [keepExisting, appendIncoming, lookupField, Field.Equals,
        Field.mk.injEq, hov, hov2]

/-- Witness for C4 on concrete collections and a fresh handle. -/
theorem mergeFields_override_witness :
    NodupKeys ([⟨"k", FieldValue.str "a"⟩] : List Field) ∧
      NodupKeys ([⟨"k", FieldValue.str "b"⟩] : List Field) ∧
      lookupField [⟨"k", FieldValue.str "a"⟩] "k" = some ⟨"k", FieldValue.str "a"⟩ ∧
      lookupField [⟨"k", FieldValue.str "b"⟩] "k" = some ⟨"k", FieldValue.str "b"⟩ ∧
      FieldsFromContext (some Ctx.background) = [] ∧
      (lookupField (MergeFields [⟨"k", FieldValue.str "a"⟩]
            [⟨"k", FieldValue.str "b"⟩]) "k" = some ⟨"k", FieldValue.str "b"⟩ ∧
        FieldsFromContext (some (WithFields (WithFields Ctx.background
            [⟨"k", FieldValue.str "old"⟩]) [⟨"k", FieldValue.str "new"⟩])) =
          [⟨"k", FieldValue.str "new"⟩]) :=
  ⟨by decide, by decide, by decide, by decide, rfl,
    mergeFields_override [⟨"k", FieldValue.str "a"⟩] [⟨"k", FieldValue.str "b"⟩]
      "k" ⟨"k", FieldValue.str "a"⟩ ⟨"k", FieldValue.str "b"⟩ Ctx.background
      (FieldValue.str "old") (FieldValue.str "new")
      (by decide) (by decide) (by decide) (by decide) rfl⟩

/-- Claim C7: `FieldsFromContext` returns a freshly allocated copy of the
stored slice: the returned cell is distinct from the stored one, holds the
same contents, and overwriting it changes neither the stored slice, nor any
slice allocated earlier (in particular those of derived handles), nor what a
subsequent retrieval returns. -/
theorem fieldsFromContext_defensive_copy (s : Store) (c : CtxRef) (r : Nat)
    (mutated : List Field) (hr : c.valueRef = some r) (hv : r < s.next) :
    (FieldsFromContextRef s (some c)).1 = some s.next ∧
      Store.read (FieldsFromContextRef s (some c)).2 s.next = Store.read s r ∧
      s.next ≠ r ∧
      (∀ r2, r2 < s.next →
        Store.read (Store.write (FieldsFromContextRef s (some c)).2 s.next mutated)
          r2 = Store.read s r2) ∧
      Store.read
          (FieldsFromContextRef
            (Store.write (FieldsFromContextRef s (some c)).2 s.next mutated)
            (some c)).2
          (Store.write (FieldsFromContextRef s (some c)).2 s.next mutated).next =
        Store.read s r := by
  have hner : s.next ≠ r := fun h => Nat.lt_irrefl r (h ▸ hv)
  have hp : FieldsFromContextRef s (some c) =
      (some s.next,
        ⟨fun i => if i = s.next then s.cells r else s.cells i, s.next + 1⟩) := by
    simp [FieldsFromContextRef, hr, Store.alloc, Store.read]
  refine ⟨by rw [hp], ?_, hner, ?_, ?_⟩
  · rw [hp]
    simp [Store.read]
  · intro r2 hr2
    have hner2 : r2 ≠ s.next := Nat.ne_of_lt hr2
    rw [hp]
    simp [Store.read, Store.write, hner2]
  · rw [hp]
    simp only [Store.write, Store.read]
    simp [FieldsFromContextRef, hr, Store.alloc, Store.read, hner]
    intro h
    exact absurd h.symm hner

end Ctxzap

namespace Ctxzap

/-- Witness for C7 on a concrete one-cell store. -/
theorem fieldsFromContext_defensive_copy_witness :
    CtxRef.valueRef (CtxRef.withFieldsSlice CtxRef.background 0) = some 0 ∧
      0 < (Store.mk (fun i => if i = 0 then [⟨"k", FieldValue.str "v"⟩] else []) 1).next ∧
      ((FieldsFromContextRef
          (Store.mk (fun i => if i = 0 then [⟨"k", FieldValue.str "v"⟩] else []) 1)
          (some (CtxRef.withFieldsSlice CtxRef.background 0))).1 =
        some (Store.mk (fun i => if i = 0 then [⟨"k", FieldValue.str "v"⟩] else []) 1).next ∧
      Store.read
          (FieldsFromContextRef
            (Store.mk (fun i => if i = 0 then [⟨"k", FieldValue.str "v"⟩] else []) 1)
            (some (CtxRef.withFieldsSlice CtxRef.background 0))).2
          (Store.mk (fun i => if i = 0 then [⟨"k", FieldValue.str "v"⟩] else []) 1).next =
        Store.read
          (Store.mk (fun i => if i = 0 then [⟨"k", FieldValue.str "v"⟩] else []) 1) 0 ∧
      (Store.mk (fun i => if i = 0 then [⟨"k", FieldValue.str "v"⟩] else []) 1).next ≠ 0 ∧
      (∀ r2, r2 < (Store.mk (fun i => if i = 0 then [⟨"k", FieldValue.str "v"⟩] else []) 1).next →
        Store.read
            (Store.write
              (FieldsFromContextRef
                (Store.mk (fun i => if i = 0 then [⟨"k", FieldValue.str "v"⟩] else []) 1)
                (some (CtxRef.withFieldsSlice CtxRef.background 0))).2
              (Store.mk (fun i => if i = 0 then [⟨"k", FieldValue.str "v"⟩] else []) 1).next
              []) r2 =
          Store.read
            (Store.mk (fun i => if i = 0 then [⟨"k", FieldValue.str "v"⟩] else []) 1) r2) ∧
      Store.read
          (FieldsFromContextRef
            (Store.write
              (FieldsFromContextRef
                (Store.mk (fun i => if i = 0 then [⟨"k", FieldValue.str "v"⟩] else []) 1)
                (some (CtxRef.withFieldsSlice CtxRef.background 0))).2
              (Store.mk (fun i => if i = 0 then [⟨"k", FieldValue.str "v"⟩] else []) 1).next
              [])
            (some (CtxRef.withFieldsSlice CtxRef.background 0))).2
          (Store.write
            (FieldsFromContextRef
              (Store.mk (fun i => if i = 0 then [⟨"k", FieldValue.str "v"⟩] else []) 1)
              (some (CtxRef.withFieldsSlice CtxRef.background 0))).2
            (Store.mk (fun i => if i = 0 then [⟨"k", FieldValue.str "v"⟩] else []) 1).next
            []).next =
        Store.read
          (Store.mk (fun i => if i = 0 then [⟨"k", FieldValue.str "v"⟩] else []) 1) 0) :=
  ⟨rfl, by decide,
    fieldsFromContext_defensive_copy
      (Store.mk (fun i => if i = 0 then [⟨"k", FieldValue.str "v"⟩] else []) 1)
      (CtxRef.withFieldsSlice CtxRef.background 0) 0 [] rfl (by decide)⟩

end Ctxzap
